import Mathlib

/-!
# Verification of the multicore parallel simplex engine

Shallow embedding of the pivoting engine of `src/parallelSimplex.cpp`
(the OpenMP parallel region of `main`, lines 289-368) over exact rational
arithmetic.  The tableau is a dense matrix `List (List ℚ)`; the parallel
work-sharing loops are embedded as their sequential executions (left-to-right
folds over the index ranges), which realises the strict-improvement
tie-break "first index wins" for both reductions.  `HUGE_VAL` is modelled
as `none : Option ℚ`.
-/

namespace ParallelSimplex

/-- One row of the tableau. -/
abbrev Row := List ℚ

/-- The tableau: `numConstraints + 1` rows, the last row being the objective
row; the last column is the right-hand side / objective value. -/
abbrev Tab := List Row

/-- `tableau[i][j]`, with the out-of-range default `0`. -/
def entry (T : Tab) (i j : ℕ) : ℚ := (T.getD i []).getD j 0

/-- `struct Compare_Max { double val = 0; int index = -1; }` (source line 75). -/
structure Compare_Max where
  val : ℚ
  index : ℤ
deriving DecidableEq

/-- `struct Compare_Min { double val = HUGE_VAL; int index = -1; }`
(source line 80).  `val = none` models `HUGE_VAL`. -/
structure Compare_Min where
  val : Option ℚ
  index : ℤ
deriving DecidableEq

/-- Strict order on "finite rational or `HUGE_VAL`" values: `hlt a b` models
`a < b` for doubles where `none` stands for `HUGE_VAL`. -/
def hlt : Option ℚ → Option ℚ → Bool
  | none, _ => false
  | some _, none => true
  | some a, some b => decide (a < b)

/-- The `maximo` declared reduction (source line 85):
`omp_out = omp_in.val > omp_out.val ? omp_in : omp_out`. -/
def combineMax (ompIn ompOut : Compare_Max) : Compare_Max :=
  if ompOut.val < ompIn.val then ompIn else ompOut

/-- The `minimo` declared reduction (source line 84):
`omp_out = omp_in.val < omp_out.val ? omp_in : omp_out`. -/
def combineMin (ompIn ompOut : Compare_Min) : Compare_Min :=
  if hlt ompIn.val ompOut.val then ompIn else ompOut

/-- Body of the entering-variable scan loop over the values `vals` (source
lines 296-299): keep the candidate if the entry is strictly negative and
improves strictly on the current best. -/
def scanStep (vals : ℕ → ℚ) (acc : Compare_Max) (j : ℕ) : Compare_Max :=
  if vals j < 0 ∧ acc.val < -(vals j) then ⟨-(vals j), (j : ℤ)⟩ else acc

/-- The initial entering-variable scan (source lines 294-299): for
`j = 0 .. colNumb` (inclusive, hence including the RHS column), keep the most
negative objective-row entry, combined into the shared `max` that starts at
its default `{0, -1}`.  `m` is `constraintNumb` (the objective row index) and
`n` is `colNumb` (the RHS column index). -/
def initialScan (T : Tab) (m n : ℕ) : Compare_Max :=
  (List.range (n + 1)).foldl (scanStep (fun j => entry T m j)) ⟨0, -1⟩

/-- Body of the ratio-test loop (source lines 308-317): if
`tableau[i][pc] > 0` fold the ratio `tableau[i][colNumb] / tableau[i][pc]`
into the minimum reduction, otherwise increment the ineligible counter. -/
def ratioBody (T : Tab) (n pc : ℕ) (acc : Compare_Min × ℕ) (i : ℕ) :
    Compare_Min × ℕ :=
  if 0 < entry T i pc then
    let r := entry T i n / entry T i pc
    if hlt (some r) acc.1.val then (⟨some r, (i : ℤ)⟩, acc.2) else acc
  else (acc.1, acc.2 + 1)

/-- The ratio test (source lines 307-317) over the constraint rows
`i = 0 .. constraintNumb-1`. -/
def ratioTest (T : Tab) (m n pc : ℕ) : Compare_Min × ℕ :=
  (List.range m).foldl (ratioBody T n pc) (⟨none, -1⟩, 0)

/-- Phase 1 of the pivot (source lines 333-336): divide every entry of the
pivot row by the pivot value. -/
def normalizeRow (row : Row) (p : ℚ) : Row := row.map (fun x => x / p)

/-- Body of the row-elimination loop (source lines 339-347): for a
constraint row `i ≠ pr`, capture `pivot2 = -tableau[i][pc]` and add
`pivot2` times the normalized pivot row `norm` to row `i`. -/
def elimBody (pr pc : ℕ) (norm : Row) (acc : Tab) (i : ℕ) : Tab :=
  if i ≠ pr then
    let p2 := -(entry acc i pc)
    acc.set i (List.zipWith (fun q t => p2 * q + t) norm (acc.getD i []))
  else acc

/-- Phase 2 of the pivot (source lines 338-347), over the constraint rows. -/
def eliminateRows (T : Tab) (m pr pc : ℕ) (norm : Row) : Tab :=
  (List.range m).foldl (elimBody pr pc norm) T

/-- Accumulator of the fused objective-row phase: the objective row being
rewritten, the remaining-violations counter `conta`, and the next
entering-variable candidate `max`. -/
structure ObjAcc where
  row : Row
  conta : ℕ
  mx : Compare_Max
deriving DecidableEq

/-- Body of the fused objective-row loop (source lines 350-359): update
`tableau[constraintNumb][j] += pivot3 * norm[j]`; if `j` is a coefficient
column (`j < colNumb`) and the updated entry is negative, increment `conta`
and fold the entry into the next entering-variable candidate. -/
def objBody (norm : Row) (p3 : ℚ) (n : ℕ) (acc : ObjAcc) (j : ℕ) : ObjAcc :=
  let v := p3 * norm.getD j 0 + acc.row.getD j 0
  let row := acc.row.set j v
  if j < n ∧ v < 0 then
    if acc.mx.val < -v then ⟨row, acc.conta + 1, ⟨-v, (j : ℤ)⟩⟩
    else ⟨row, acc.conta + 1, acc.mx⟩
  else ⟨row, acc.conta, acc.mx⟩

/-- Phase 3 of the pivot (source lines 349-359), over the columns
`j = 0 .. colNumb`; the reduction's private candidate copy starts at the
default `{0, -1}`. -/
def objUpdate (obj norm : Row) (p3 : ℚ) (n : ℕ) : ObjAcc :=
  (List.range (n + 1)).foldl (objBody norm p3 n) ⟨obj, 0, ⟨0, -1⟩⟩

/-- The value written into objective-row column `j` by phase 3. -/
def objNew (obj norm : Row) (p3 : ℚ) (j : ℕ) : ℚ :=
  p3 * norm.getD j 0 + obj.getD j 0

/-- The Row Eliminator (source lines 329-359): capture
`pivot = tableau[pr][pc]` and `pivot3 = -tableau[m][pc]` before any write,
normalize the pivot row, eliminate the pivot column from the other
constraint rows, then update the objective row while discovering the next
entering-variable candidate and the violation counter. -/
def rowEliminate (T : Tab) (m n pr pc : ℕ) : Tab × ℕ × Compare_Max :=
  let p := entry T pr pc
  let p3 := -(entry T m pc)
  let T1 := T.set pr (normalizeRow (T.getD pr []) p)
  let norm := T1.getD pr []
  let T2 := eliminateRows T1 m pr pc norm
  let ob := objUpdate (T2.getD m []) norm p3 n
  (T2.set m ob.row, ob.conta, ob.mx)

/-- The engine state at the start of a loop iteration: the tableau, the
entering-variable candidate index `max.index` (its `val` component is `0` at
every iteration start, reset in the `single` sections at lines 302 and 364),
and the iteration counter `ni`. -/
structure EngineState where
  T : Tab
  maxIndex : ℤ
  ni : ℕ
deriving DecidableEq

/-- Result of one execution of the do-while body. -/
inductive StepResult where
  | unbounded : StepResult
  | next : EngineState → ℕ → StepResult
deriving DecidableEq

/-- One execution of the do-while body (source lines 305-367): ratio test;
if every constraint row was ineligible, the `exit(1)` at line 323
(unbounded); otherwise pivot via the Row Eliminator.  The shared `max` after
the fused scan is `combineMax` of the scan result with the shared value
`{0, s.maxIndex}`, so the candidate index survives only if the scan found a
strictly negative entry; `ni` is incremented in the final `single`. -/
def engineStep (m n : ℕ) (s : EngineState) : StepResult :=
  let pc := s.maxIndex.toNat
  let rt := ratioTest s.T m n pc
  if rt.2 = m then .unbounded
  else
    let pr := rt.1.index.toNat
    let res := rowEliminate s.T m n pr pc
    let newIdx := if 0 < res.2.2.val then res.2.2.index else s.maxIndex
    .next ⟨res.1, newIdx, s.ni + 1⟩ res.2.1

/-- Terminal outcome of the engine, with explicit fuel exhaustion. -/
inductive Outcome where
  | outOfFuel : Outcome
  | unbounded : Outcome
  | optimal : EngineState → Outcome
deriving DecidableEq

/-- The do-while loop (source lines 305-367): the body runs, then the run
continues while `conta` is non-zero. -/
def engineRun (m n : ℕ) : ℕ → EngineState → Outcome
  | 0, _ => .outOfFuel
  | fuel + 1, s =>
    match engineStep m n s with
    | .unbounded => .unbounded
    | .next s' conta => if conta ≠ 0 then engineRun m n fuel s' else .optimal s'

/-- The engine state on entry to the do-while loop: the tableau as read, the
initial scan's candidate index, zero completed iterations. -/
def initState (T : Tab) (m n : ℕ) : EngineState :=
  ⟨T, (initialScan T m n).index, 0⟩

/-- The whole engine: initial scan, then the pivot loop. -/
def simplexMain (T : Tab) (m n fuel : ℕ) : Outcome :=
  engineRun m n fuel (initState T m n)

/-- `iterateEngine m n k s` is the engine state at the start of iteration
`k+1` (equivalently: after `k` completed pivots), when the run from `s` is
still alive at that point; `none` if the run ended strictly earlier. -/
def iterateEngine (m n : ℕ) : ℕ → EngineState → Option EngineState
  | 0, s => some s
  | k + 1, s =>
    match engineStep m n s with
    | .unbounded => none
    | .next s' conta =>
      if conta ≠ 0 then iterateEngine m n k s'
      else if k = 0 then some s' else none

/-- The run from tableau `T` never reaches a terminal state. -/
def runsForever (T : Tab) (m n : ℕ) : Prop :=
  ∀ fuel, simplexMain T m n fuel = .outOfFuel

/-- Well-formed dimensions: `m+1` rows, each of length `n+1`. -/
def WFTab (T : Tab) (m n : ℕ) : Prop :=
  T.length = m + 1 ∧ ∀ i < m + 1, ((T.getD i []).length = n + 1)

/-- Every constraint row has a non-negative RHS entry. -/
def FeasRHS (T : Tab) (m n : ℕ) : Prop := ∀ i < m, 0 ≤ entry T i n

instance decidableWFTab (T : Tab) (m n : ℕ) : Decidable (WFTab T m n) :=
  inferInstanceAs (Decidable
    (T.length = m + 1 ∧ ∀ i < m + 1, ((T.getD i []).length = n + 1)))

instance decidableFeasRHS (T : Tab) (m n : ℕ) : Decidable (FeasRHS T m n) :=
  inferInstanceAs (Decidable (∀ i < m, 0 ≤ entry T i n))

/-- `res` is a correct most-negative scan result of the values
`vals 0, …, vals (bound-1)`: either the sentinel `{0, -1}` with no strictly
negative value scanned, or the witness of the largest-magnitude strictly
negative value. -/
def IsBestNegative (vals : ℕ → ℚ) (bound : ℕ) (res : Compare_Max) : Prop :=
  (res.val = 0 ∧ res.index = -1 ∧ ∀ j < bound, 0 ≤ vals j) ∨
  (∃ j < bound, res.index = (j : ℤ) ∧ res.val = -(vals j) ∧ vals j < 0 ∧
    ∀ j' < bound, vals j' < 0 → -(vals j') ≤ -(vals j))

/-- `mn` is a correct result of the ratio test over `m` constraint rows:
either no row is eligible and `mn` is still the default, or `mn` carries an
eligible row of minimal ratio. -/
def RatioMinSpec (T : Tab) (n pc m : ℕ) (mn : Compare_Min) : Prop :=
  (mn = ⟨none, -1⟩ ∧ ∀ i < m, entry T i pc ≤ 0) ∨
  (∃ i < m, mn = ⟨some (entry T i n / entry T i pc), (i : ℤ)⟩ ∧
    0 < entry T i pc ∧
    ∀ i' < m, 0 < entry T i' pc →
      entry T i n / entry T i pc ≤ entry T i' n / entry T i' pc)

/-- Projection: did the run end in the Optimal terminal state? -/
def Outcome.isOptimal : Outcome → Bool
  | .optimal _ => true
  | _ => false

/-- Projection: final objective value `tableau[lastRow][lastCol]` of an
optimal outcome (`0` otherwise). -/
def Outcome.objValue (m n : ℕ) : Outcome → ℚ
  | .optimal s => entry s.T m n
  | _ => 0

/-- Projection: iteration count `ni` of an optimal outcome (`0` otherwise). -/
def Outcome.iterations : Outcome → ℕ
  | .optimal s => s.ni
  | _ => 0

/-- The textbook scenario of the specification (§8): `maximize 3x1 + 5x2`
subject to `x1 ≤ 4`, `2x2 ≤ 12`, `3x1 + 2x2 ≤ 18`, in standard form. -/
def Texample : Tab :=
  [[1, 0, 1, 0, 0, 4],
   [0, 2, 0, 1, 0, 12],
   [3, 2, 0, 0, 1, 18],
   [-3, -5, 0, 0, 0, 0]]

/-- The single-constraint unbounded scenario of the specification (§8). -/
def Tunbounded : Tab :=
  [[-1, 0, 5],
   [-1, 0, 0]]

/-- `Texample` after its first pivot (pivot column 1, pivot row 1). -/
def TexampleMid : Tab :=
  [[1, 0, 1, 0, 0, 4],
   [0, 1, 0, 1/2, 0, 6],
   [3, 0, 0, -1, 1, 6],
   [-3, 0, 0, 5/2, 0, 30]]

/-- `Texample` after its second pivot (pivot column 0, pivot row 2): the
optimal tableau, objective value 36. -/
def TexampleFinal : Tab :=
  [[0, 0, 1, 1/3, -1/3, 2],
   [0, 1, 0, 1/2, 0, 6],
   [1, 0, 0, -1/3, 1/3, 2],
   [0, 0, 0, 3/2, 1, 36]]

/-- A feasible standard-form tableau on which the engine cycles (the
classical degenerate cycling instance: `maximize 10x1 - 57x2 - 9x3 - 24x4`
subject to `x1/2 - 11x2/2 - 5x3/2 + 9x4 ≤ 0`, `x1/2 - 3x2/2 - x3/2 + x4 ≤ 0`,
`x1 ≤ 1`, with three slack variables).  Dimensions: `m = 3`, `n = 7`. -/
def Tcycle0 : Tab :=
  [[(1:ℚ)/2, -11/2, -5/2, 9, 1, 0, 0, 0],
   [1/2, -3/2, -1/2, 1, 0, 1, 0, 0],
   [1, 0, 0, 0, 0, 0, 1, 1],
   [-10, 57, 9, 24, 0, 0, 0, 0]]

/-- The tableau one pivot after `Tcycle0` (pivot column 0, pivot row 0). -/
def Tcycle1 : Tab :=
  [[(1:ℚ), -11, -5, 18, 2, 0, 0, 0],
   [0, 4, 2, -8, -1, 1, 0, 0],
   [0, 11, 5, -18, -2, 0, 1, 1],
   [0, -53, -41, 204, 20, 0, 0, 0]]

/-- The tableau two pivots after `Tcycle0` (pivot column 1, pivot row 1). -/
def Tcycle2 : Tab :=
  [[(1:ℚ), 0, 1/2, -4, -3/4, 11/4, 0, 0],
   [0, 1, 1/2, -2, -1/4, 1/4, 0, 0],
   [0, 0, -1/2, 4, 3/4, -11/4, 1, 1],
   [0, 0, -29/2, 98, 27/4, 53/4, 0, 0]]

/-- The tableau three pivots after `Tcycle0` (pivot column 2, pivot row 0). -/
def Tcycle3 : Tab :=
  [[(2:ℚ), 0, 1, -8, -3/2, 11/2, 0, 0],
   [-1, 1, 0, 2, 1/2, -5/2, 0, 0],
   [1, 0, 0, 0, 0, 0, 1, 1],
   [29, 0, 0, -18, -15, 93, 0, 0]]

/-- The tableau four pivots after `Tcycle0` (pivot column 3, pivot row 1). -/
def Tcycle4 : Tab :=
  [[(-2:ℚ), 4, 1, 0, 1/2, -9/2, 0, 0],
   [-1/2, 1/2, 0, 1, 1/4, -5/4, 0, 0],
   [1, 0, 0, 0, 0, 0, 1, 1],
   [20, 9, 0, 0, -21/2, 141/2, 0, 0]]

/-- The tableau five pivots after `Tcycle0` (pivot column 4, pivot row 0). -/
def Tcycle5 : Tab :=
  [[(-4:ℚ), 8, 2, 0, 1, -9, 0, 0],
   [1/2, -3/2, -1/2, 1, 0, 1, 0, 0],
   [1, 0, 0, 0, 0, 0, 1, 1],
   [-22, 93, 21, 0, 0, -24, 0, 0]]

/-- The six tableau/pivot-column pairs of the cycle, in order; pivoting from
state `k` yields state `k+1 mod 6`. -/
def cycleStates : List (Tab × ℤ) :=
  [(Tcycle0, 0), (Tcycle1, 1), (Tcycle2, 2), (Tcycle3, 3),
   (Tcycle4, 4), (Tcycle5, 5)]

/-!
## Lemmas

The rational operations of Batteries are `@[irreducible]`; for the concrete
engine runs below they are evaluated by `decide`, which needs them
semireducible.
-/

set_option maxRecDepth 8000

attribute [local semireducible] Rat.mul Rat.add Rat.sub Rat.inv

/-- Peeling the last index off a fold over `List.range`. -/
theorem foldlRange_succ {α : Type} (f : α → ℕ → α) (a : α) (k : ℕ) :
    (List.range (k + 1)).foldl f a = f ((List.range k).foldl f a) k := by
  rw [List.range_succ, List.foldl_append]
  rfl

theorem getD_set_self {α : Type} {l : List α} {i : ℕ} (h : i < l.length)
    (a d : α) : (l.set i a).getD i d = a := by
  rw [List.getD_eq_getElem?_getD, List.getElem?_set_self h, Option.getD_some]

theorem getD_set_ne {α : Type} {l : List α} {i j : ℕ} (h : i ≠ j) (a d : α) :
    (l.set i a).getD j d = l.getD j d := by
  rw [List.getD_eq_getElem?_getD, List.getElem?_set_ne h,
    List.getD_eq_getElem?_getD]

theorem getD_map_div (l : List ℚ) (p : ℚ) (j : ℕ) :
    (l.map (fun x => x / p)).getD j 0 = l.getD j 0 / p := by
  rw [List.getD_eq_getElem?_getD, List.getElem?_map,
    List.getD_eq_getElem?_getD]
  cases l[j]? with
  | none => simp
  | some a => rfl

theorem getD_zipWith_lin (p2 : ℚ) (l1 l2 : List ℚ)
    (h : l1.length = l2.length) (j : ℕ) :
    (List.zipWith (fun q t => p2 * q + t) l1 l2).getD j 0 =
      p2 * l1.getD j 0 + l2.getD j 0 := by
  rw [List.getD_eq_getElem?_getD, List.getElem?_zipWith,
    List.getD_eq_getElem?_getD, List.getD_eq_getElem?_getD]
  cases h1 : l1[j]? with
  | none =>
    have h1' : l1.length ≤ j := List.getElem?_eq_none_iff.1 h1
    have h2 : l2[j]? = none := List.getElem?_eq_none_iff.2 (h ▸ h1')
    rw [h2]
    simp
  | some a =>
    have hj : j < l1.length := by
      by_contra hj
      rw [List.getElem?_eq_none_iff.2 (by omega)] at h1
      exact Option.noConfusion h1
    have hj2 : j < l2.length := h ▸ hj
    rw [List.getElem?_eq_getElem hj2]
    rfl

theorem entry_set_ne {T : Tab} {r i : ℕ} (h : r ≠ i) (row : Row) (j : ℕ) :
    entry (T.set r row) i j = entry T i j := by
  unfold entry
  rw [getD_set_ne h]

theorem entry_set_self {T : Tab} {r : ℕ} (h : r < T.length) (row : Row)
    (j : ℕ) : entry (T.set r row) r j = row.getD j 0 := by
  unfold entry
  rw [getD_set_self h]

/-- A row fetched in range is a genuine element of the tableau. -/
theorem getD_length {T : Tab} {m n : ℕ} (hWF : WFTab T m n) {i : ℕ}
    (hi : i < m + 1) : (T.getD i []).length = n + 1 :=
  hWF.2 i hi

/-- Let-free restatement of `ratioBody`. -/
theorem ratioBody_eq (T : Tab) (n pc : ℕ) (acc : Compare_Min × ℕ) (i : ℕ) :
    ratioBody T n pc acc i =
      if 0 < entry T i pc then
        if hlt (some (entry T i n / entry T i pc)) acc.1.val then
          (⟨some (entry T i n / entry T i pc), (i : ℤ)⟩, acc.2)
        else acc
      else (acc.1, acc.2 + 1) := rfl

theorem ratioTest_succ (T : Tab) (n pc k : ℕ) :
    ratioTest T (k + 1) n pc = ratioBody T n pc (ratioTest T k n pc) k :=
  foldlRange_succ _ _ k

theorem ratioTest_count_le (T : Tab) (m n pc : ℕ) :
    (ratioTest T m n pc).2 ≤ m := by
  induction m with
  | zero => exact Nat.le_refl 0
  | succ k ih =>
    rw [ratioTest_succ, ratioBody_eq]
    split
    · split
      · exact Nat.le_succ_of_le ih
      · exact Nat.le_succ_of_le ih
    · exact Nat.succ_le_succ ih

theorem ratioTest_count_iff (T : Tab) (m n pc : ℕ) :
    (ratioTest T m n pc).2 = m ↔ ∀ i < m, entry T i pc ≤ 0 := by
  induction m with
  | zero => simp [ratioTest]
  | succ k ih =>
    rw [ratioTest_succ, ratioBody_eq]
    by_cases h1 : 0 < entry T k pc
    · rw [if_pos h1]
      have hle := ratioTest_count_le T k n pc
      constructor
      · intro h2
        exfalso
        split at h2
        · dsimp only at h2
          omega
        · omega
      · intro h2
        exact absurd h1 (not_lt.2 (h2 k (Nat.lt_succ_self k)))
    · rw [if_neg h1]
      simp only []
      constructor
      · intro h2 i hi
        rcases Nat.lt_succ_iff_lt_or_eq.1 hi with hi' | rfl
        · exact ih.1 (by omega) i hi'
        · exact not_lt.1 h1
      · intro h2
        have hk : (ratioTest T k n pc).2 = k :=
          ih.2 fun i hi => h2 i (Nat.lt_succ_of_lt hi)
        omega

theorem ratioTest_min_spec (T : Tab) (m n pc : ℕ) :
    RatioMinSpec T n pc m (ratioTest T m n pc).1 := by
  induction m with
  | zero =>
    left
    exact ⟨rfl, by omega⟩
  | succ k ih =>
    rw [ratioTest_succ, ratioBody_eq]
    by_cases h1 : 0 < entry T k pc
    · rw [if_pos h1]
      by_cases h2 :
          hlt (some (entry T k n / entry T k pc)) (ratioTest T k n pc).1.val
            = true
      · rw [if_pos h2]
        right
        refine ⟨k, Nat.lt_succ_self k, rfl, h1, ?_⟩
        intro i' hi' hpos
        rcases Nat.lt_succ_iff_lt_or_eq.1 hi' with hi'' | rfl
        · rcases ih with ⟨hmn, hall⟩ | ⟨i, hi, hmn, hposi, hminl⟩
          · exact absurd hpos (not_lt.2 (hall i' hi''))
          · rw [hmn] at h2
            simp only [hlt, decide_eq_true_eq] at h2
            exact le_trans (le_of_lt h2) (hminl i' hi'' hpos)
        · exact le_refl _
      · rw [if_neg h2]
        rcases ih with ⟨hmn, hall⟩ | ⟨i, hi, hmn, hposi, hminl⟩
        · exfalso
          apply h2
          rw [hmn]
          rfl
        · right
          refine ⟨i, Nat.lt_succ_of_lt hi, hmn, hposi, ?_⟩
          intro i' hi' hpos
          rcases Nat.lt_succ_iff_lt_or_eq.1 hi' with hi'' | rfl
          · exact hminl i' hi'' hpos
          · rw [hmn] at h2
            simp only [hlt, decide_eq_true_eq] at h2
            exact not_lt.1 h2
    · rw [if_neg h1]
      simp only []
      rcases ih with ⟨hmn, hall⟩ | ⟨i, hi, hmn, hposi, hminl⟩
      · left
        refine ⟨hmn, ?_⟩
        intro i hi
        rcases Nat.lt_succ_iff_lt_or_eq.1 hi with hi' | rfl
        · exact hall i hi'
        · exact not_lt.1 h1
      · right
        refine ⟨i, Nat.lt_succ_of_lt hi, hmn, hposi, ?_⟩
        intro i' hi' hpos
        rcases Nat.lt_succ_iff_lt_or_eq.1 hi' with hi'' | rfl
        · exact hminl i' hi'' hpos
        · exact absurd hpos (not_lt.2 (not_lt.1 h1))

theorem ratioTest_found (T : Tab) (m n pc : ℕ)
    (h : (ratioTest T m n pc).2 ≠ m) :
    ∃ i < m, (ratioTest T m n pc).1.index = (i : ℤ) ∧ 0 < entry T i pc ∧
      ∀ i' < m, 0 < entry T i' pc →
        entry T i n / entry T i pc ≤ entry T i' n / entry T i' pc := by
  rcases ratioTest_min_spec T m n pc with ⟨_, hall⟩ | ⟨i, hi, hmn, hpos, hminl⟩
  · exact absurd ((ratioTest_count_iff T m n pc).2 hall) h
  · exact ⟨i, hi, by rw [hmn], hpos, hminl⟩

/-- Let-free restatement of `objBody`. -/
theorem objBody_eq (norm : Row) (p3 : ℚ) (n : ℕ) (acc : ObjAcc) (j : ℕ) :
    objBody norm p3 n acc j =
      if j < n ∧ p3 * norm.getD j 0 + acc.row.getD j 0 < 0 then
        if acc.mx.val < -(p3 * norm.getD j 0 + acc.row.getD j 0) then
          ⟨acc.row.set j (p3 * norm.getD j 0 + acc.row.getD j 0),
            acc.conta + 1, ⟨-(p3 * norm.getD j 0 + acc.row.getD j 0), (j : ℤ)⟩⟩
        else
          ⟨acc.row.set j (p3 * norm.getD j 0 + acc.row.getD j 0),
            acc.conta + 1, acc.mx⟩
      else
        ⟨acc.row.set j (p3 * norm.getD j 0 + acc.row.getD j 0), acc.conta,
          acc.mx⟩ := rfl

/-- Joint invariant of the fused objective-row fold after `k` columns: the
row is updated pointwise below `k`, `conta` is zero iff no updated
coefficient column below `k` is negative, and the candidate is a correct
most-negative scan result of the updated values below `min k n`. -/
theorem objUpdate_go (obj norm : Row) (p3 : ℚ) (n : ℕ)
    (hlen : norm.length = obj.length) (k : ℕ) :
    ((List.range k).foldl (objBody norm p3 n) ⟨obj, 0, ⟨0, -1⟩⟩).row.length
        = obj.length ∧
    (∀ j, ((List.range k).foldl (objBody norm p3 n)
        ⟨obj, 0, ⟨0, -1⟩⟩).row.getD j 0 =
      if j < k then objNew obj norm p3 j else obj.getD j 0) ∧
    (((List.range k).foldl (objBody norm p3 n) ⟨obj, 0, ⟨0, -1⟩⟩).conta = 0 ↔
      ∀ j, j < k → j < n → 0 ≤ objNew obj norm p3 j) ∧
    IsBestNegative (objNew obj norm p3) (min k n)
      ((List.range k).foldl (objBody norm p3 n) ⟨obj, 0, ⟨0, -1⟩⟩).mx := by
  induction k with
  | zero =>
    refine ⟨rfl, fun j => by simp, ?_, ?_⟩
    · constructor
      · intro _ j hj _
        exact absurd hj (Nat.not_lt_zero j)
      · intro _
        rfl
    · left
      refine ⟨rfl, rfl, ?_⟩
      intro j hj
      exact absurd hj (by omega)
  | succ k ih =>
    obtain ⟨ihlen, ihrow, ihconta, ihmx⟩ := ih
    rw [foldlRange_succ, objBody_eq]
    have hvk : ((List.range k).foldl (objBody norm p3 n)
        ⟨obj, 0, ⟨0, -1⟩⟩).row.getD k 0 = obj.getD k 0 := by
      rw [ihrow k, if_neg (by omega)]
    rw [hvk]
    rw [show p3 * norm.getD k 0 + obj.getD k 0 = objNew obj norm p3 k from rfl]
    have hrowlen : (((List.range k).foldl (objBody norm p3 n)
        ⟨obj, 0, ⟨0, -1⟩⟩).row.set k (objNew obj norm p3 k)).length
        = obj.length := by
      rw [List.length_set, ihlen]
    have hrowget : ∀ j, (((List.range k).foldl (objBody norm p3 n)
        ⟨obj, 0, ⟨0, -1⟩⟩).row.set k (objNew obj norm p3 k)).getD j 0
        = if j < k + 1 then objNew obj norm p3 j else obj.getD j 0 := by
      intro j
      by_cases hj : j = k
      · rw [hj, if_pos (Nat.lt_succ_self k)]
        by_cases hl : k < ((List.range k).foldl (objBody norm p3 n)
            ⟨obj, 0, ⟨0, -1⟩⟩).row.length
        · exact getD_set_self hl _ _
        · have hlo : obj.length ≤ k := by omega
          have hln : norm.length ≤ k := by omega
          rw [List.getD_eq_default _ _ (by rw [List.length_set]; omega)]
          unfold objNew
          rw [List.getD_eq_default _ _ hlo, List.getD_eq_default _ _ hln,
            mul_zero, add_zero]
      · rw [getD_set_ne (fun h => hj h.symm), ihrow j]
        by_cases hjk : j < k
        · rw [if_pos hjk, if_pos (by omega)]
        · rw [if_neg hjk, if_neg (by omega)]
    by_cases hkn : k < n
    · have hb : min (k + 1) n = k + 1 := by omega
      have hbk : min k n = k := by omega
      rw [hbk] at ihmx
      by_cases hneg : objNew obj norm p3 k < 0
      · rw [if_pos ⟨hkn, hneg⟩]
        by_cases himp : ((List.range k).foldl (objBody norm p3 n)
            ⟨obj, 0, ⟨0, -1⟩⟩).mx.val < -(objNew obj norm p3 k)
        · rw [if_pos himp]
          refine ⟨hrowlen, hrowget, ?_, ?_⟩
          · constructor
            · intro h
              dsimp only at h
              exact absurd h (by omega)
            · intro h
              exact absurd (h k (by omega) hkn) (not_le.2 hneg)
          · rw [hb]
            right
            refine ⟨k, by omega, rfl, rfl, hneg, ?_⟩
            intro j' hj' hneg'
            rcases Nat.lt_succ_iff_lt_or_eq.1 hj' with hj'' | rfl
            · rcases ihmx with ⟨hv0, _, hall⟩ | ⟨j0, hj0, _, hval0, _, hbest0⟩
              · exact absurd hneg' (not_lt.2 (hall j' hj''))
              · exact le_of_lt (lt_of_le_of_lt
                  (le_of_le_of_eq (hbest0 j' hj'' hneg') hval0.symm) himp)
            · exact le_refl _
        · rw [if_neg himp]
          refine ⟨hrowlen, hrowget, ?_, ?_⟩
          · constructor
            · intro h
              dsimp only at h
              exact absurd h (by omega)
            · intro h
              exact absurd (h k (by omega) hkn) (not_le.2 hneg)
          · rw [hb]
            rcases ihmx with ⟨hv0, _, _⟩ | ⟨j0, hj0, hidx0, hval0, hneg0, hbest0⟩
            · exfalso
              apply himp
              rw [hv0]
              exact neg_pos.2 hneg
            · right
              refine ⟨j0, by omega, hidx0, hval0, hneg0, ?_⟩
              intro j' hj' hneg'
              rcases Nat.lt_succ_iff_lt_or_eq.1 hj' with hj'' | rfl
              · exact hbest0 j' hj'' hneg'
              · exact le_of_le_of_eq (not_lt.1 himp) hval0
      · rw [if_neg (fun h => hneg h.2)]
        refine ⟨hrowlen, hrowget, ?_, ?_⟩
        · rw [ihconta]
          constructor
          · intro h j hj hjn
            rcases Nat.lt_succ_iff_lt_or_eq.1 hj with hj' | rfl
            · exact h j hj' hjn
            · exact not_lt.1 hneg
          · intro h j hj hjn
            exact h j (by omega) hjn
        · rw [hb]
          rcases ihmx with ⟨hv0, hi0, hall⟩ | ⟨j0, hj0, hidx0, hval0, hneg0, hbest0⟩
          · left
            refine ⟨hv0, hi0, ?_⟩
            intro j hj
            rcases Nat.lt_succ_iff_lt_or_eq.1 hj with hj' | rfl
            · exact hall j hj'
            · exact not_lt.1 hneg
          · right
            refine ⟨j0, by omega, hidx0, hval0, hneg0, ?_⟩
            intro j' hj' hneg'
            rcases Nat.lt_succ_iff_lt_or_eq.1 hj' with hj'' | rfl
            · exact hbest0 j' hj'' hneg'
            · exact absurd hneg' hneg
    · rw [if_neg (fun h => hkn h.1)]
      refine ⟨hrowlen, hrowget, ?_, ?_⟩
      · rw [ihconta]
        constructor
        · intro h j hj hjn
          rcases Nat.lt_succ_iff_lt_or_eq.1 hj with hj' | rfl
          · exact h j hj' hjn
          · exact absurd hjn hkn
        · intro h j hj hjn
          exact h j (by omega) hjn
      · rw [show min (k + 1) n = min k n from by omega]
        exact ihmx

/-- Final characterization of phase 3 of the pivot. -/
theorem objUpdate_spec (obj norm : Row) (p3 : ℚ) (n : ℕ)
    (hlen : norm.length = obj.length) :
    (objUpdate obj norm p3 n).row.length = obj.length ∧
    (∀ j, (objUpdate obj norm p3 n).row.getD j 0 =
      if j < n + 1 then objNew obj norm p3 j else obj.getD j 0) ∧
    ((objUpdate obj norm p3 n).conta = 0 ↔
      ∀ j < n, 0 ≤ objNew obj norm p3 j) ∧
    IsBestNegative (objNew obj norm p3) n (objUpdate obj norm p3 n).mx := by
  obtain ⟨h1, h2, h3, h4⟩ := objUpdate_go obj norm p3 n hlen (n + 1)
  refine ⟨h1, h2, ?_, ?_⟩
  · rw [show objUpdate obj norm p3 n = (List.range (n + 1)).foldl
      (objBody norm p3 n) ⟨obj, 0, ⟨0, -1⟩⟩ from rfl, h3]
    constructor
    · intro h j hj
      exact h j (by omega) hj
    · intro h j _ hj
      exact h j hj
  · have hb : min (n + 1) n = n := by omega
    rw [hb] at h4
    exact h4

/-- Value functions equal below the bound have the same best-negative
results. -/
theorem IsBestNegative_congr {v1 v2 : ℕ → ℚ} {b : ℕ}
    (h : ∀ j < b, v1 j = v2 j)
    {r : Compare_Max} (hr : IsBestNegative v1 b r) : IsBestNegative v2 b r := by
  rcases hr with ⟨h1, h2, h3⟩ | ⟨j, hj, h1, h2, h3, h4⟩
  · exact Or.inl ⟨h1, h2, fun j hj => h j hj ▸ h3 j hj⟩
  · refine Or.inr ⟨j, hj, h1, ?_, ?_, ?_⟩
    · rw [← h j hj]
      exact h2
    · rw [← h j hj]
      exact h3
    · intro j' hj' hn
      rw [← h j' hj', ← h j hj]
      exact h4 j' hj' (by rw [h j' hj']; exact hn)

/-- Let-free restatement of `elimBody`. -/
theorem elimBody_eq (pr pc : ℕ) (norm : Row) (acc : Tab) (i : ℕ) :
    elimBody pr pc norm acc i =
      if i ≠ pr then
        acc.set i (List.zipWith (fun q t => -(entry acc i pc) * q + t) norm
          (acc.getD i []))
      else acc := rfl

theorem eliminateRows_succ (T : Tab) (pr pc : ℕ) (norm : Row) (k : ℕ) :
    eliminateRows T (k + 1) pr pc norm =
      elimBody pr pc norm (eliminateRows T k pr pc norm) k :=
  foldlRange_succ _ _ k

/-- Phase 2 rewrites exactly the constraint rows other than the pivot row,
each by the captured-factor row combination against `norm`. -/
theorem eliminateRows_spec (T : Tab) (pr pc : ℕ) (norm : Row) (m : ℕ) :
    (eliminateRows T m pr pc norm).length = T.length ∧
    (∀ i, m ≤ i ∨ i = pr →
      (eliminateRows T m pr pc norm).getD i [] = T.getD i []) ∧
    (∀ i < m, i ≠ pr → (eliminateRows T m pr pc norm).getD i [] =
      List.zipWith (fun q t => -(entry T i pc) * q + t) norm (T.getD i [])) := by
  induction m with
  | zero =>
    exact ⟨rfl, fun i _ => rfl, fun i hi _ => absurd hi (by omega)⟩
  | succ k ih =>
    obtain ⟨ihlen, ihkeep, ihrow⟩ := ih
    rw [eliminateRows_succ, elimBody_eq]
    by_cases hk : k = pr
    · rw [if_neg (fun h => h hk)]
      refine ⟨ihlen, ?_, ?_⟩
      · intro i hi
        apply ihkeep
        rcases hi with hi | hi
        · exact Or.inl (by omega)
        · exact Or.inr hi
      · intro i hi hip
        rcases Nat.lt_succ_iff_lt_or_eq.1 hi with hi' | rfl
        · exact ihrow i hi' hip
        · exact absurd hk hip
    · rw [if_pos hk]
      have hkeepk : (eliminateRows T k pr pc norm).getD k [] = T.getD k [] :=
        ihkeep k (Or.inl (le_refl k))
      have hentry : entry (eliminateRows T k pr pc norm) k pc
          = entry T k pc := by
        unfold entry
        rw [hkeepk]
      rw [hkeepk, hentry]
      refine ⟨?_, ?_, ?_⟩
      · rw [List.length_set, ihlen]
      · intro i hi
        have hik : k ≠ i := by
          rcases hi with hi | hi
          · omega
          · exact fun h => hk (by rw [h, hi])
        rw [getD_set_ne hik]
        apply ihkeep
        rcases hi with hi | hi
        · exact Or.inl (by omega)
        · exact Or.inr hi
      · intro i hi hip
        rcases Nat.lt_succ_iff_lt_or_eq.1 hi with hi' | rfl
        · rw [getD_set_ne (by omega)]
          exact ihrow i hi' hip
        · by_cases hkL : i < (eliminateRows T i pr pc norm).length
          · exact getD_set_self hkL _ _
          · rw [List.getD_eq_default _ _ (by rw [List.length_set]; omega)]
            have hTi : T.getD i [] = [] :=
              List.getD_eq_default _ _ (by rw [ihlen] at hkL; omega)
            rw [hTi, List.zipWith_nil_right]

/-- Master characterization of the Row Eliminator on a well-formed tableau:
entries of the pivot row, of the other constraint rows and of the objective
row after one pivot; preservation of well-formedness; and correctness of the
fused violation counter and entering-variable candidate. -/
theorem rowEliminate_spec (T : Tab) (m n pr pc : ℕ) (hWF : WFTab T m n)
    (hpr : pr < m) :
    (∀ j, entry (rowEliminate T m n pr pc).1 pr j
      = entry T pr j / entry T pr pc) ∧
    (∀ i < m, i ≠ pr → ∀ j, entry (rowEliminate T m n pr pc).1 i j =
      -(entry T i pc) * (entry T pr j / entry T pr pc) + entry T i j) ∧
    (∀ j, entry (rowEliminate T m n pr pc).1 m j =
      if j < n + 1 then
        -(entry T m pc) * (entry T pr j / entry T pr pc) + entry T m j
      else entry T m j) ∧
    WFTab (rowEliminate T m n pr pc).1 m n ∧
    ((rowEliminate T m n pr pc).2.1 = 0 ↔ ∀ j < n,
      0 ≤ -(entry T m pc) * (entry T pr j / entry T pr pc) + entry T m j) ∧
    IsBestNegative
      (fun j => -(entry T m pc) * (entry T pr j / entry T pr pc) + entry T m j)
      n (rowEliminate T m n pr pc).2.2 := by
  have hlenT : T.length = m + 1 := hWF.1
  have hprl : pr < T.length := by omega
  have hml : m < T.length := by omega
  have hprm : pr ≠ m := by omega
  set T1 := T.set pr (normalizeRow (T.getD pr []) (entry T pr pc)) with hT1
  set norm := T1.getD pr [] with hnormdef
  set T2 := eliminateRows T1 m pr pc norm with hT2
  set ob := objUpdate (T2.getD m []) norm (-(entry T m pc)) n with hob
  have hR : rowEliminate T m n pr pc = (T2.set m ob.row, ob.conta, ob.mx) := rfl
  have hnorm_get : ∀ j, norm.getD j 0 = entry T pr j / entry T pr pc := by
    intro j
    rw [hnormdef, hT1, getD_set_self hprl]
    exact getD_map_div _ _ j
  have hnorm_len : norm.length = n + 1 := by
    rw [hnormdef, hT1, getD_set_self hprl]
    unfold normalizeRow
    rw [List.length_map]
    exact hWF.2 pr (by omega)
  have hT1len : T1.length = T.length := by
    rw [hT1, List.length_set]
  have hT1keep : ∀ i, i ≠ pr → T1.getD i [] = T.getD i [] := by
    intro i hi
    rw [hT1]
    exact getD_set_ne (fun h => hi h.symm) _ _
  obtain ⟨helimlen, helimkeep, helimrow⟩ := eliminateRows_spec T1 pr pc norm m
  have hT2m : T2.getD m [] = T.getD m [] := by
    rw [hT2, helimkeep m (Or.inl (le_refl m))]
    exact hT1keep m (fun h => hprm h.symm)
  have hT2mlen : (T2.getD m []).length = n + 1 := by
    rw [hT2m]
    exact hWF.2 m (by omega)
  have hT2len : T2.length = T.length := by
    rw [hT2, helimlen, hT1len]
  have hobm : ∀ j, (T2.getD m []).getD j 0 = entry T m j := by
    intro j
    rw [hT2m]
    rfl
  obtain ⟨hoblen, hobget, hobconta, hobmx⟩ :=
    objUpdate_spec (T2.getD m []) norm (-(entry T m pc)) n
      (by rw [hnorm_len, hT2mlen])
  have hptw : ∀ j, objNew (T2.getD m []) norm (-(entry T m pc)) j =
      -(entry T m pc) * (entry T pr j / entry T pr pc) + entry T m j := by
    intro j
    unfold objNew
    rw [hnorm_get j, hobm j]
  have hmpr : m ≠ pr := fun h => hprm h.symm
  rw [hR]
  refine ⟨?_, ?_, ?_, ?_, ?_, ?_⟩
  · intro j
    show entry (T2.set m ob.row) pr j = _
    rw [entry_set_ne hmpr _ _]
    show (T2.getD pr []).getD j 0 = _
    rw [hT2, helimkeep pr (Or.inr rfl), ← hnormdef]
    exact hnorm_get j
  · intro i hi hip j
    show entry (T2.set m ob.row) i j = _
    rw [entry_set_ne (show m ≠ i by omega) _ _]
    show (T2.getD i []).getD j 0 = _
    have hlen2 : norm.length = (T1.getD i []).length := by
      rw [hnorm_len, hT1keep i hip, hWF.2 i (by omega)]
    rw [hT2, helimrow i hi hip,
      getD_zipWith_lin (-(entry T1 i pc)) norm (T1.getD i []) hlen2 j,
      hnorm_get j]
    have e3 : entry T1 i pc = entry T i pc := by
      unfold entry
      rw [hT1keep i hip]
    rw [e3, hT1keep i hip]
    rfl
  · intro j
    show entry (T2.set m ob.row) m j = _
    rw [entry_set_self (show m < T2.length by rw [hT2len, hlenT]; omega) _ _,
      hob, hobget j, hptw j, hobm j]
  · constructor
    · show (T2.set m ob.row).length = m + 1
      rw [List.length_set, hT2len, hlenT]
    · intro i hi
      show ((T2.set m ob.row).getD i []).length = n + 1
      by_cases him : i = m
      · rw [him, getD_set_self (show m < T2.length by rw [hT2len, hlenT]; omega)
          _ _, hob, hoblen, hT2mlen]
      · rw [getD_set_ne (fun h => him h.symm) _ _]
        have him2 : i < m := by omega
        by_cases hipr : i = pr
        · rw [hipr, hT2, helimkeep pr (Or.inr rfl), ← hnormdef]
          exact hnorm_len
        · rw [hT2, helimrow i him2 hipr, List.length_zipWith, hT1keep i hipr,
            hnorm_len, hWF.2 i (by omega)]
          exact Nat.min_self (n + 1)
  · show ob.conta = 0 ↔ _
    rw [hob, hobconta]
    simp only [hptw]
  · show IsBestNegative _ n ob.mx
    rw [hob]
    exact IsBestNegative_congr (fun j _ => hptw j) hobmx

/-- The pure entering-variable scan fold computes a correct most-negative
scan result. -/
theorem scanFold_spec (vals : ℕ → ℚ) (k : ℕ) :
    IsBestNegative vals k ((List.range k).foldl (scanStep vals) ⟨0, -1⟩) := by
  induction k with
  | zero =>
    left
    exact ⟨rfl, rfl, fun j hj => absurd hj (Nat.not_lt_zero j)⟩
  | succ k ih =>
    rw [foldlRange_succ]
    unfold scanStep
    by_cases hneg : vals k < 0
    · by_cases himp :
          ((List.range k).foldl (scanStep vals) ⟨0, -1⟩).val < -(vals k)
      · rw [if_pos ⟨hneg, himp⟩]
        right
        refine ⟨k, Nat.lt_succ_self k, rfl, rfl, hneg, ?_⟩
        intro j' hj' hneg'
        rcases Nat.lt_succ_iff_lt_or_eq.1 hj' with hj'' | rfl
        · rcases ih with ⟨hv0, _, hall⟩ | ⟨j0, hj0, _, hval0, _, hbest0⟩
          · exact absurd hneg' (not_lt.2 (hall j' hj''))
          · exact le_of_lt (lt_of_le_of_lt
              (le_of_le_of_eq (hbest0 j' hj'' hneg') hval0.symm) himp)
        · exact le_refl _
      · rw [if_neg (fun h => himp h.2)]
        rcases ih with ⟨hv0, _, _⟩ | ⟨j0, hj0, hidx0, hval0, hneg0, hbest0⟩
        · exfalso
          apply himp
          rw [hv0]
          exact neg_pos.2 hneg
        · right
          refine ⟨j0, Nat.lt_succ_of_lt hj0, hidx0, hval0, hneg0, ?_⟩
          intro j' hj' hneg'
          rcases Nat.lt_succ_iff_lt_or_eq.1 hj' with hj'' | rfl
          · exact hbest0 j' hj'' hneg'
          · exact le_of_le_of_eq (not_lt.1 himp) hval0
    · rw [if_neg (fun h => hneg h.1)]
      rcases ih with ⟨hv0, hi0, hall⟩ | ⟨j0, hj0, hidx0, hval0, hneg0, hbest0⟩
      · left
        refine ⟨hv0, hi0, ?_⟩
        intro j hj
        rcases Nat.lt_succ_iff_lt_or_eq.1 hj with hj' | rfl
        · exact hall j hj'
        · exact not_lt.1 hneg
      · right
        refine ⟨j0, Nat.lt_succ_of_lt hj0, hidx0, hval0, hneg0, ?_⟩
        intro j' hj' hneg'
        rcases Nat.lt_succ_iff_lt_or_eq.1 hj' with hj'' | rfl
        · exact hbest0 j' hj'' hneg'
        · exact absurd hneg' hneg

/-- The initial scan is a correct most-negative scan of the objective row
over all its `n+1` columns, the RHS column included. -/
theorem initialScan_spec (T : Tab) (m n : ℕ) :
    IsBestNegative (fun j => entry T m j) (n + 1) (initialScan T m n) :=
  scanFold_spec _ (n + 1)

/-- Let-free restatement of `engineStep`. -/
theorem engineStep_eq (m n : ℕ) (s : EngineState) :
    engineStep m n s =
      if (ratioTest s.T m n s.maxIndex.toNat).2 = m then .unbounded
      else
        .next
          ⟨(rowEliminate s.T m n
              (ratioTest s.T m n s.maxIndex.toNat).1.index.toNat
              s.maxIndex.toNat).1,
            if 0 < (rowEliminate s.T m n
                (ratioTest s.T m n s.maxIndex.toNat).1.index.toNat
                s.maxIndex.toNat).2.2.val then
              (rowEliminate s.T m n
                (ratioTest s.T m n s.maxIndex.toNat).1.index.toNat
                s.maxIndex.toNat).2.2.index
            else s.maxIndex, s.ni + 1⟩
          (rowEliminate s.T m n
            (ratioTest s.T m n s.maxIndex.toNat).1.index.toNat
            s.maxIndex.toNat).2.1 := rfl

/-- The body exits through the `exit(1)` branch exactly when every
constraint row has a non-positive entry in the current pivot column. -/
theorem engineStep_unbounded_iff (m n : ℕ) (s : EngineState) :
    engineStep m n s = .unbounded ↔
      ∀ i < m, entry s.T i s.maxIndex.toNat ≤ 0 := by
  rw [engineStep_eq]
  by_cases h : (ratioTest s.T m n s.maxIndex.toNat).2 = m
  · rw [if_pos h]
    exact iff_of_true rfl ((ratioTest_count_iff s.T m n s.maxIndex.toNat).1 h)
  · rw [if_neg h]
    constructor
    · intro hcon
      exact StepResult.noConfusion hcon
    · intro hall
      exact absurd ((ratioTest_count_iff s.T m n s.maxIndex.toNat).2 hall) h

/-- Characterization of a completed body execution: the pivot row is an
eligible constraint row of minimal ratio, and the new state is the Row
Eliminator output with the combined candidate index and incremented `ni`. -/
theorem engineStep_next_spec (m n : ℕ) (s s' : EngineState) (c : ℕ)
    (h : engineStep m n s = .next s' c) :
    ∃ pr < m, 0 < entry s.T pr s.maxIndex.toNat ∧
      (∀ i < m, 0 < entry s.T i s.maxIndex.toNat →
        entry s.T pr n / entry s.T pr s.maxIndex.toNat ≤
          entry s.T i n / entry s.T i s.maxIndex.toNat) ∧
      s'.T = (rowEliminate s.T m n pr s.maxIndex.toNat).1 ∧
      c = (rowEliminate s.T m n pr s.maxIndex.toNat).2.1 ∧
      s'.maxIndex =
        (if 0 < (rowEliminate s.T m n pr s.maxIndex.toNat).2.2.val then
          (rowEliminate s.T m n pr s.maxIndex.toNat).2.2.index
        else s.maxIndex) ∧
      s'.ni = s.ni + 1 := by
  rw [engineStep_eq] at h
  by_cases hm : (ratioTest s.T m n s.maxIndex.toNat).2 = m
  · rw [if_pos hm] at h
    exact StepResult.noConfusion h
  · rw [if_neg hm] at h
    obtain ⟨pr, hprm, hidx, hpos, hmin⟩ :=
      ratioTest_found s.T m n s.maxIndex.toNat hm
    have hprN : (ratioTest s.T m n s.maxIndex.toNat).1.index.toNat = pr := by
      rw [hidx]
      omega
    rw [hprN] at h
    injection h with hval hc
    refine ⟨pr, hprm, hpos, hmin, ?_, hc.symm, ?_, ?_⟩
    · rw [← hval]
    · rw [← hval]
    · rw [← hval]

/-- One completed body execution preserves well-formedness. -/
theorem engineStep_WF (m n : ℕ) (s s' : EngineState) (c : ℕ)
    (hWF : WFTab s.T m n) (h : engineStep m n s = .next s' c) :
    WFTab s'.T m n := by
  obtain ⟨pr, hprm, _, _, hT, _, _, _⟩ := engineStep_next_spec m n s s' c h
  rw [hT]
  exact (rowEliminate_spec s.T m n pr _ hWF hprm).2.2.2.1

/-- One completed body execution preserves non-negativity of the
constraint-row RHS entries (the feasibility invariant). -/
theorem engineStep_feas (m n : ℕ) (s s' : EngineState) (c : ℕ)
    (hWF : WFTab s.T m n) (hFeas : FeasRHS s.T m n)
    (h : engineStep m n s = .next s' c) : FeasRHS s'.T m n := by
  obtain ⟨pr, hprm, hpos, hmin, hT, _, _, _⟩ := engineStep_next_spec m n s s' c h
  obtain ⟨h1, h2, _, _, _, _⟩ := rowEliminate_spec s.T m n pr _ hWF hprm
  intro i hi
  rw [hT]
  by_cases hip : i = pr
  · rw [hip, h1 n]
    exact div_nonneg (hFeas pr hprm) (le_of_lt hpos)
  · rw [h2 i hi hip n]
    by_cases hpos2 : 0 < entry s.T i s.maxIndex.toNat
    · have hm2 := hmin i hi hpos2
      have key : entry s.T i s.maxIndex.toNat *
          (entry s.T pr n / entry s.T pr s.maxIndex.toNat) ≤
            entry s.T i n := by
        have h7 := mul_le_mul_of_nonneg_left hm2 (le_of_lt hpos2)
        rwa [mul_comm (entry s.T i s.maxIndex.toNat)
            (entry s.T i n / entry s.T i s.maxIndex.toNat),
          div_mul_cancel₀ _ (ne_of_gt hpos2)] at h7
      rw [neg_mul]
      linarith
    · have ha : 0 ≤ -(entry s.T i s.maxIndex.toNat) := by
        rw [neg_nonneg]
        exact not_lt.1 hpos2
      have hq : 0 ≤ entry s.T pr n / entry s.T pr s.maxIndex.toNat :=
        div_nonneg (hFeas pr hprm) (le_of_lt hpos)
      have := mul_nonneg ha hq
      linarith [hFeas i hi]

/-- One completed body execution never decreases the objective value, as
long as the pivot column is a genuine violation and the RHS is
non-negative. -/
theorem engineStep_mono (m n : ℕ) (s s' : EngineState) (c : ℕ)
    (hWF : WFTab s.T m n) (hFeas : FeasRHS s.T m n)
    (hneg : entry s.T m s.maxIndex.toNat < 0)
    (h : engineStep m n s = .next s' c) :
    entry s.T m n ≤ entry s'.T m n := by
  obtain ⟨pr, hprm, hpos, _, hT, _, _, _⟩ := engineStep_next_spec m n s s' c h
  obtain ⟨_, _, h3, _, _, _⟩ := rowEliminate_spec s.T m n pr _ hWF hprm
  rw [hT, h3 n, if_pos (by omega)]
  have hq : 0 ≤ entry s.T pr n / entry s.T pr s.maxIndex.toNat :=
    div_nonneg (hFeas pr hprm) (le_of_lt hpos)
  have h8 := mul_nonneg (by linarith :
    (0:ℚ) ≤ -(entry s.T m s.maxIndex.toNat)) hq
  linarith

/-- After a completed body execution whose violation counter is non-zero,
the new candidate column is in range and carries a strictly negative
objective entry. -/
theorem engineStep_nextcol (m n : ℕ) (s s' : EngineState) (c : ℕ)
    (hWF : WFTab s.T m n) (h : engineStep m n s = .next s' c) (hc : c ≠ 0) :
    entry s'.T m s'.maxIndex.toNat < 0 ∧ 0 ≤ s'.maxIndex := by
  obtain ⟨pr, hprm, hpos, hmin, hT, hc2, hidx, _⟩ :=
    engineStep_next_spec m n s s' c h
  obtain ⟨_, _, h3, _, h5, h6⟩ := rowEliminate_spec s.T m n pr _ hWF hprm
  rcases h6 with ⟨hv0, _, hall⟩ | ⟨j0, hj0, hi0, hval0, hneg0, _⟩
  · exfalso
    apply hc
    rw [hc2]
    exact h5.2 hall
  · have hvpos :
        0 < (rowEliminate s.T m n pr s.maxIndex.toNat).2.2.val := by
      rw [hval0]
      exact neg_pos.2 hneg0
    rw [hidx, if_pos hvpos, hi0]
    constructor
    · have ht : ((j0 : ℤ)).toNat = j0 := by omega
      rw [ht, hT, h3 j0, if_pos (by omega)]
      exact hneg0
    · omega

/-- Unfolding equation of the do-while runner: the body executes before any
check of the continuation condition. -/
theorem engineRun_succ (m n fuel : ℕ) (s : EngineState) :
    engineRun m n (fuel + 1) s =
      match engineStep m n s with
      | .unbounded => .unbounded
      | .next s' conta =>
        if conta ≠ 0 then engineRun m n fuel s' else .optimal s' := rfl

/-- Unfolding equation of the iteration tracker. -/
theorem iterateEngine_succ (m n k : ℕ) (s : EngineState) :
    iterateEngine m n (k + 1) s =
      match engineStep m n s with
      | .unbounded => none
      | .next s' conta =>
        if conta ≠ 0 then iterateEngine m n k s'
        else if k = 0 then some s' else none := rfl

/-- A run that ends Optimal ends in a well-formed state whose objective-row
coefficient entries are all non-negative. -/
theorem engineRun_optimal_spec (m n fuel : ℕ) :
    ∀ s s', WFTab s.T m n → engineRun m n fuel s = .optimal s' →
      WFTab s'.T m n ∧ ∀ j < n, 0 ≤ entry s'.T m j := by
  induction fuel with
  | zero =>
    intro s s' _ h
    exact Outcome.noConfusion h
  | succ fuel ih =>
    intro s s' hWF h
    rw [engineRun_succ] at h
    cases hstep : engineStep m n s with
    | unbounded =>
      rw [hstep] at h
      exact Outcome.noConfusion h
    | next s1 c =>
      rw [hstep] at h
      dsimp only at h
      by_cases hc : c ≠ 0
      · rw [if_pos hc] at h
        exact ih s1 s' (engineStep_WF m n s s1 c hWF hstep) h
      · rw [if_neg hc] at h
        injection h with h1
        subst h1
        push_neg at hc
        have hWF1 := engineStep_WF m n s s1 c hWF hstep
        refine ⟨hWF1, ?_⟩
        obtain ⟨pr, hprm, _, _, hT, hc2, _, _⟩ :=
          engineStep_next_spec m n s s1 c hstep
        obtain ⟨_, _, h3, _, h5, _⟩ := rowEliminate_spec s.T m n pr _ hWF hprm
        have hcz : (rowEliminate s.T m n pr s.maxIndex.toNat).2.1 = 0 := by
          rw [← hc2]
          exact hc
        intro j hj
        rw [hT, h3 j, if_pos (by omega)]
        exact h5.1 hcz j hj

/-- Well-formedness and RHS non-negativity hold at the start of every
iteration reached from a state satisfying them. -/
theorem iterateEngine_feas (m n k : ℕ) :
    ∀ s s', WFTab s.T m n → FeasRHS s.T m n →
      iterateEngine m n k s = some s' →
      WFTab s'.T m n ∧ FeasRHS s'.T m n := by
  induction k with
  | zero =>
    intro s s' hWF hFeas h
    injection h with h1
    subst h1
    exact ⟨hWF, hFeas⟩
  | succ k ih =>
    intro s s' hWF hFeas h
    rw [iterateEngine_succ] at h
    cases hstep : engineStep m n s with
    | unbounded =>
      rw [hstep] at h
      exact Option.noConfusion h
    | next s1 c =>
      rw [hstep] at h
      dsimp only at h
      have hWF1 := engineStep_WF m n s s1 c hWF hstep
      have hFeas1 := engineStep_feas m n s s1 c hWF hFeas hstep
      by_cases hc : c ≠ 0
      · rw [if_pos hc] at h
        exact ih s1 s' hWF1 hFeas1 h
      · rw [if_neg hc] at h
        by_cases hk : k = 0
        · rw [if_pos hk] at h
          injection h with h1
          subst h1
          exact ⟨hWF1, hFeas1⟩
        · rw [if_neg hk] at h
          exact Option.noConfusion h

/-- The objective value never decreases from one reached iteration state to
the next, given a well-formed feasible start whose candidate column is a
genuine violation. -/
theorem iterateEngine_mono (m n k : ℕ) :
    ∀ s s' s'', WFTab s.T m n → FeasRHS s.T m n →
      entry s.T m s.maxIndex.toNat < 0 →
      iterateEngine m n k s = some s' →
      iterateEngine m n (k + 1) s = some s'' →
      entry s'.T m n ≤ entry s''.T m n := by
  induction k with
  | zero =>
    intro s s' s'' hWF hFeas hneg h0 h1
    injection h0 with h0
    subst h0
    rw [iterateEngine_succ] at h1
    cases hstep : engineStep m n s with
    | unbounded =>
      rw [hstep] at h1
      exact Option.noConfusion h1
    | next s1 c =>
      rw [hstep] at h1
      dsimp only at h1
      by_cases hc : c ≠ 0
      · rw [if_pos hc] at h1
        injection h1 with h1
        subst h1
        exact engineStep_mono m n s s1 c hWF hFeas hneg hstep
      · rw [if_neg hc, if_pos rfl] at h1
        injection h1 with h1
        subst h1
        exact engineStep_mono m n s s1 c hWF hFeas hneg hstep
  | succ k ih =>
    intro s s' s'' hWF hFeas hneg h0 h1
    rw [iterateEngine_succ] at h0 h1
    cases hstep : engineStep m n s with
    | unbounded =>
      rw [hstep] at h0
      exact Option.noConfusion h0
    | next s1 c =>
      rw [hstep] at h0 h1
      dsimp only at h0 h1
      by_cases hc : c ≠ 0
      · rw [if_pos hc] at h0 h1
        have hWF1 := engineStep_WF m n s s1 c hWF hstep
        have hFeas1 := engineStep_feas m n s s1 c hWF hFeas hstep
        have hneg1 := (engineStep_nextcol m n s s1 c hWF hstep hc).1
        exact ih s1 s' s'' hWF1 hFeas1 hneg1 h0 h1
      · rw [if_neg hc, if_neg (Nat.succ_ne_zero k)] at h1
        exact Option.noConfusion h1

/-- The body never reads the iteration counter: its result for an arbitrary
counter value is the result for counter `0` with the counter adjusted. -/
theorem engineStep_mk_ni (m n : ℕ) (T : Tab) (idx : ℤ) (a : ℕ) :
    engineStep m n ⟨T, idx, a⟩ =
      match engineStep m n ⟨T, idx, 0⟩ with
      | .unbounded => .unbounded
      | .next s1 c => .next ⟨s1.T, s1.maxIndex, a + 1⟩ c := by
  rw [engineStep_eq, engineStep_eq]
  dsimp only
  by_cases h : (ratioTest T m n idx.toNat).2 = m
  · rw [if_pos h, if_pos h]
  · rw [if_neg h, if_neg h]

theorem cycleStep0 :
    engineStep 3 7 ⟨Tcycle0, 0, 0⟩ = .next ⟨Tcycle1, 1, 1⟩ 2 := by decide

theorem cycleStep1 :
    engineStep 3 7 ⟨Tcycle1, 1, 0⟩ = .next ⟨Tcycle2, 2, 1⟩ 1 := by decide

theorem cycleStep2 :
    engineStep 3 7 ⟨Tcycle2, 2, 0⟩ = .next ⟨Tcycle3, 3, 1⟩ 2 := by decide

theorem cycleStep3 :
    engineStep 3 7 ⟨Tcycle3, 3, 0⟩ = .next ⟨Tcycle4, 4, 1⟩ 1 := by decide

theorem cycleStep4 :
    engineStep 3 7 ⟨Tcycle4, 4, 0⟩ = .next ⟨Tcycle5, 5, 1⟩ 2 := by decide

theorem cycleStep5 :
    engineStep 3 7 ⟨Tcycle5, 5, 0⟩ = .next ⟨Tcycle0, 0, 1⟩ 1 := by decide

/-- Any run whose state carries one of the six cycle tableau/column pairs
only ever exhausts its fuel: every body execution continues into the next
cycle state. -/
theorem engineRun_cycle (fuel : ℕ) :
    ∀ s : EngineState,
      (s.T = Tcycle0 ∧ s.maxIndex = 0) ∨ (s.T = Tcycle1 ∧ s.maxIndex = 1) ∨
      (s.T = Tcycle2 ∧ s.maxIndex = 2) ∨ (s.T = Tcycle3 ∧ s.maxIndex = 3) ∨
      (s.T = Tcycle4 ∧ s.maxIndex = 4) ∨ (s.T = Tcycle5 ∧ s.maxIndex = 5) →
      engineRun 3 7 fuel s = .outOfFuel := by
  induction fuel with
  | zero =>
    intro s _
    rfl
  | succ fuel ih =>
    intro s hs
    obtain ⟨T, idx, ni⟩ := s
    dsimp only at hs
    rcases hs with ⟨hT, hi⟩ | ⟨hT, hi⟩ | ⟨hT, hi⟩ | ⟨hT, hi⟩ | ⟨hT, hi⟩ |
      ⟨hT, hi⟩ <;> subst hT <;> subst hi
    · rw [engineRun_succ, engineStep_mk_ni, cycleStep0]
      exact ih ⟨Tcycle1, 1, ni + 1⟩ (Or.inr (Or.inl ⟨rfl, rfl⟩))
    · rw [engineRun_succ, engineStep_mk_ni, cycleStep1]
      exact ih ⟨Tcycle2, 2, ni + 1⟩ (Or.inr (Or.inr (Or.inl ⟨rfl, rfl⟩)))
    · rw [engineRun_succ, engineStep_mk_ni, cycleStep2]
      exact ih ⟨Tcycle3, 3, ni + 1⟩
        (Or.inr (Or.inr (Or.inr (Or.inl ⟨rfl, rfl⟩))))
    · rw [engineRun_succ, engineStep_mk_ni, cycleStep3]
      exact ih ⟨Tcycle4, 4, ni + 1⟩
        (Or.inr (Or.inr (Or.inr (Or.inr (Or.inl ⟨rfl, rfl⟩)))))
    · rw [engineRun_succ, engineStep_mk_ni, cycleStep4]
      exact ih ⟨Tcycle5, 5, ni + 1⟩
        (Or.inr (Or.inr (Or.inr (Or.inr (Or.inr ⟨rfl, rfl⟩)))))
    · rw [engineRun_succ, engineStep_mk_ni, cycleStep5]
      exact ih ⟨Tcycle0, 0, ni + 1⟩ (Or.inl ⟨rfl, rfl⟩)

/-- The run from the cycling tableau never reaches a terminal state. -/
theorem cycle_runsForever : runsForever Tcycle0 3 7 := by
  intro fuel
  unfold simplexMain
  apply engineRun_cycle fuel
  left
  exact ⟨rfl, by decide⟩

/-!
## Claims
-/

/-- Claim C1: one pivot of the Row Eliminator, in exact arithmetic, divides
every entry of the pivot row (all columns, RHS included) by the pivot value;
turns every other constraint row `r` into
`old_r[col] + factor * normalizedPivotRow[col]` with
`factor = -old_r[pivotCol]`; and updates the objective row the same way with
`factor = -objective[pivotCol]` captured before normalization, i.e. the
negated pre-pivot objective entry in the pivot column. -/
theorem C1_row_eliminator (T : Tab) (m n pr pc : ℕ) (hWF : WFTab T m n)
    (hpr : pr < m) :
    (∀ j ≤ n, entry (rowEliminate T m n pr pc).1 pr j
      = entry T pr j / entry T pr pc) ∧
    (∀ i < m, i ≠ pr → ∀ j ≤ n, entry (rowEliminate T m n pr pc).1 i j
      = entry T i j + -(entry T i pc) * (entry T pr j / entry T pr pc)) ∧
    (∀ j ≤ n, entry (rowEliminate T m n pr pc).1 m j
      = entry T m j + -(entry T m pc) * (entry T pr j / entry T pr pc)) := by
  obtain ⟨h1, h2, h3, _, _, _⟩ := rowEliminate_spec T m n pr pc hWF hpr
  refine ⟨fun j _ => h1 j, ?_, ?_⟩
  · intro i hi hip j _
    rw [h2 i hi hip j]
    ring
  · intro j hj
    rw [h3 j, if_pos (by omega)]
    ring

/-- Witness for C1 on the textbook tableau, pivot row 1, pivot column 1. -/
theorem C1_witness :
    WFTab Texample 3 5 ∧ 1 < 3 ∧
    ((∀ j ≤ 5, entry (rowEliminate Texample 3 5 1 1).1 1 j
      = entry Texample 1 j / entry Texample 1 1) ∧
    (∀ i < 3, i ≠ 1 → ∀ j ≤ 5, entry (rowEliminate Texample 3 5 1 1).1 i j
      = entry Texample i j +
          -(entry Texample i 1) * (entry Texample 1 j / entry Texample 1 1)) ∧
    (∀ j ≤ 5, entry (rowEliminate Texample 3 5 1 1).1 3 j
      = entry Texample 3 j +
          -(entry Texample 3 1) * (entry Texample 1 j / entry Texample 1 1))) :=
  ⟨by decide, by decide, C1_row_eliminator Texample 3 5 1 1 (by decide) (by decide)⟩

/-- Claim C2: on the textbook input tableau (maximize `3x1+5x2` subject to
`x1 ≤ 4`, `2x2 ≤ 12`, `3x1+2x2 ≤ 18`, standard form) the engine reaches the
Optimal terminal state with final objective value
`tableau[lastRow][lastCol] = 36` after exactly 2 pivot iterations. -/
theorem C2_textbook_scenario :
    (simplexMain Texample 3 5 10).isOptimal = true ∧
    Outcome.objValue 3 5 (simplexMain Texample 3 5 10) = 36 ∧
    Outcome.iterations (simplexMain Texample 3 5 10) = 2 := by decide

/-- Claim C3: whenever, in some iteration, every constraint row has a
non-positive entry in the chosen pivot column (the ineligible counter equals
the number of constraint rows), the run ends in the Unbounded terminal state,
producing no objective value, instead of looping or crashing. -/
theorem C3_unbounded_exit (m n : ℕ) (s : EngineState) (fuel : ℕ)
    (h : ∀ i < m, entry s.T i s.maxIndex.toNat ≤ 0) :
    engineRun m n (fuel + 1) s = .unbounded := by
  rw [engineRun_succ, (engineStep_unbounded_iff m n s).2 h]

/-- Witness for C3 on the single-constraint tableau
`row0 = [-1, 0, 5]`, `objective = [-1, 0, 0]` of the specification. -/
theorem C3_witness :
    (∀ i < 1, entry (initState Tunbounded 1 2).T i
      (initState Tunbounded 1 2).maxIndex.toNat ≤ 0) ∧
    engineRun 1 2 1 (initState Tunbounded 1 2) = .unbounded :=
  ⟨by decide, C3_unbounded_exit 1 2 (initState Tunbounded 1 2) 0 (by decide)⟩

/-- Claim C4: when the engine reaches the Optimal terminal state (the loop
exits because the remaining-violations counter of the just-completed pivot
is zero), every entry of the objective row except the RHS/objective-value
column is non-negative. -/
theorem C4_optimal_nonneg (T : Tab) (m n fuel : ℕ) (s' : EngineState)
    (hWF : WFTab T m n) (h : simplexMain T m n fuel = .optimal s') :
    ∀ j < n, 0 ≤ entry s'.T m j :=
  (engineRun_optimal_spec m n fuel (initState T m n) s' hWF h).2

/-- Witness for C4 on the textbook tableau. -/
theorem C4_witness :
    WFTab Texample 3 5 ∧
    simplexMain Texample 3 5 10
      = .optimal ⟨TexampleFinal, 0, 2⟩ ∧
    ∀ j < 5, 0 ≤ entry (⟨TexampleFinal, 0, 2⟩ : EngineState).T 3 j :=
  ⟨by decide, by decide,
    C4_optimal_nonneg Texample 3 5 10 ⟨TexampleFinal, 0, 2⟩
      (by decide) (by decide)⟩

/-- Claim C5: for every run from a tableau whose constraint-row RHS entries
are all non-negative, the RHS-column entry of every constraint row is
non-negative at the start of every iteration (degenerate pivots may reach 0
but never go below), the pivot row being selected by the minimum-ratio test
over rows with strictly positive pivot-column entry. -/
theorem C5_feasibility (T : Tab) (m n k : ℕ) (s' : EngineState)
    (hWF : WFTab T m n) (hFeas : FeasRHS T m n)
    (h : iterateEngine m n k (initState T m n) = some s') :
    FeasRHS s'.T m n :=
  (iterateEngine_feas m n k (initState T m n) s' hWF hFeas h).2

/-- Witness for C5 on the textbook tableau after one pivot. -/
theorem C5_witness :
    WFTab Texample 3 5 ∧ FeasRHS Texample 3 5 ∧
    iterateEngine 3 5 1 (initState Texample 3 5)
      = some ⟨TexampleMid, 0, 1⟩ ∧
    FeasRHS (⟨TexampleMid, 0, 1⟩ : EngineState).T 3 5 :=
  ⟨by decide, by decide, by decide,
    C5_feasibility Texample 3 5 1 ⟨TexampleMid, 0, 1⟩
      (by decide) (by decide) (by decide)⟩

/-- Claim C6: across successive iterations of a run starting from a tableau
with non-negative constraint-row RHS entries (and an objective row with at
least one strictly negative entry, so that the entering candidate is
defined), the objective value `tableau[lastRow][lastCol]` never decreases
from one iteration to the next. -/
theorem C6_monotone (T : Tab) (m n k : ℕ) (s' s'' : EngineState)
    (hWF : WFTab T m n) (hFeas : FeasRHS T m n)
    (hneg : ∃ j ≤ n, entry T m j < 0)
    (h1 : iterateEngine m n k (initState T m n) = some s')
    (h2 : iterateEngine m n (k + 1) (initState T m n) = some s'') :
    entry s'.T m n ≤ entry s''.T m n := by
  obtain ⟨j, hj, hnegj⟩ := hneg
  have hcand : entry (initState T m n).T m
      (initState T m n).maxIndex.toNat < 0 := by
    rcases initialScan_spec T m n with ⟨_, _, hall⟩ | ⟨j0, hj0, hi0, _, hneg0, _⟩
    · exact absurd hnegj (not_lt.2 (hall j (by omega)))
    · show entry T m (initialScan T m n).index.toNat < 0
      rw [hi0, show ((j0 : ℤ)).toNat = j0 from by omega]
      exact hneg0
  exact iterateEngine_mono m n k (initState T m n) s' s'' hWF hFeas hcand h1 h2

/-- Witness for C6 on the textbook tableau, first iteration. -/
theorem C6_witness :
    WFTab Texample 3 5 ∧ FeasRHS Texample 3 5 ∧
    (∃ j ≤ 5, entry Texample 3 j < 0) ∧
    iterateEngine 3 5 0 (initState Texample 3 5)
      = some (initState Texample 3 5) ∧
    iterateEngine 3 5 1 (initState Texample 3 5)
      = some ⟨TexampleMid, 0, 1⟩ ∧
    entry (initState Texample 3 5).T 3 5
      ≤ entry (⟨TexampleMid, 0, 1⟩ : EngineState).T 3 5 :=
  ⟨by decide, by decide, ⟨0, by decide, by decide⟩, by decide, by decide,
    C6_monotone Texample 3 5 0 (initState Texample 3 5) ⟨TexampleMid, 0, 1⟩
      (by decide) (by decide) ⟨0, by decide, by decide⟩ (by decide) (by decide)⟩

/-- Claim C7, amended: termination is not guaranteed for every feasible
input: on the well-formed feasible degenerate tableau `Tcycle0` the engine
returns to the same tableau and entering column after exactly 6 pivots, so
the pivot loop cycles and never reaches a terminal state. -/
theorem C7_cycle : WFTab Tcycle0 3 7 ∧ FeasRHS Tcycle0 3 7 ∧
    (iterateEngine 3 7 6 (initState Tcycle0 3 7)).map
      (fun s => (s.T, s.maxIndex)) = some (Tcycle0, 0) := by decide

/-- Counterexample to C7 as stated: the run from the feasible tableau
`Tcycle0` exhausts any finite fuel without reaching Optimal or Unbounded —
the loop runs forever. -/
theorem C7_counterexample :
    WFTab Tcycle0 3 7 ∧ FeasRHS Tcycle0 3 7 ∧ runsForever Tcycle0 3 7 :=
  ⟨by decide, by decide, cycle_runsForever⟩

/-- Claim C8, amended: both entering-variable scans yield the column of the
most negative (largest-magnitude strictly negative) scanned entry, or the
sentinel `{0, -1}` when no scanned entry is strictly negative; the scan
fused into the pivot considers exactly the coefficient columns `j < n` of
the updated objective row, but the initial scan considers all `n + 1`
columns of the objective row, the RHS/objective-value column included. -/
theorem C8_scans_amended (T : Tab) (m n : ℕ) (obj norm : Row) (p3 : ℚ) :
    IsBestNegative (fun j => entry T m j) (n + 1) (initialScan T m n) ∧
    (norm.length = obj.length →
      IsBestNegative (fun j => (objUpdate obj norm p3 n).row.getD j 0) n
        (objUpdate obj norm p3 n).mx) := by
  refine ⟨initialScan_spec T m n, fun hlen => ?_⟩
  obtain ⟨_, hget, _, hmx⟩ := objUpdate_spec obj norm p3 n hlen
  exact IsBestNegative_congr
    (fun j hj => by rw [hget j, if_pos (by omega)]) hmx

/-- Counterexample to C8 as stated: on the tableau with objective row
`[1, -5]` (one coefficient column holding `1`, RHS holding `-5`) the initial
scan does not stay at the sentinel, although no coefficient column is
strictly negative — it scans, and selects, the RHS column. -/
theorem C8_counterexample :
    ¬ ((initialScan [[0, 0], [1, -5]] 1 1).val = 0 ∧
      (initialScan [[0, 0], [1, -5]] 1 1).index = -1) := by decide

/-- Witness for C8 on the textbook tableau and its first pivot data. -/
theorem C8_witness :
    ([0, 1, 0, 1/2, 0, 6] : Row).length
      = ([-3, -5, 0, 0, 0, 0] : Row).length ∧
    IsBestNegative (fun j => entry Texample 3 j) (5 + 1)
      (initialScan Texample 3 5) ∧
    IsBestNegative
      (fun j =>
        (objUpdate [-3, -5, 0, 0, 0, 0] [0, 1, 0, 1/2, 0, 6] 5 5).row.getD j 0)
      5 (objUpdate [-3, -5, 0, 0, 0, 0] [0, 1, 0, 1/2, 0, 6] 5 5).mx :=
  ⟨by decide,
    (C8_scans_amended Texample 3 5 [-3, -5, 0, 0, 0, 0]
      [0, 1, 0, 1/2, 0, 6] 5).1,
    (C8_scans_amended Texample 3 5 [-3, -5, 0, 0, 0, 0]
      [0, 1, 0, 1/2, 0, 6] 5).2 (by decide)⟩

theorem hlt_trans {x y z : Option ℚ} (h1 : hlt x y = true)
    (h2 : hlt y z = true) : hlt x z = true := by
  cases x <;> cases y <;> cases z <;> simp_all [hlt] <;> linarith

theorem hlt_neg_trans {x y z : Option ℚ} (h1 : hlt x y = false)
    (h2 : hlt y z = false) : hlt x z = false := by
  cases x <;> cases y <;> cases z <;> simp_all [hlt] <;> linarith

theorem hlt_asymm {x y : Option ℚ} (h : hlt x y = true) :
    hlt y x = false := by
  cases x <;> cases y <;> simp_all [hlt] <;> linarith

theorem hlt_eq {x y : Option ℚ} (h1 : hlt x y = false)
    (h2 : hlt y x = false) : x = y := by
  cases x <;> cases y <;> simp_all [hlt] <;> linarith

/-- Claim C9: both Candidate Reduction combine operators — the maximize
variant keeping the argument with strictly larger value and the minimize
variant keeping the argument with strictly smaller value — are associative
on (value, index) pairs and commutative in the value component. -/
theorem C9_combine_algebra :
    (∀ a b c : Compare_Max,
      combineMax (combineMax a b) c = combineMax a (combineMax b c)) ∧
    (∀ a b c : Compare_Min,
      combineMin (combineMin a b) c = combineMin a (combineMin b c)) ∧
    (∀ a b : Compare_Max, (combineMax a b).val = (combineMax b a).val) ∧
    (∀ a b : Compare_Min, (combineMin a b).val = (combineMin b a).val) := by
  refine ⟨?_, ?_, ?_, ?_⟩
  · intro a b c
    unfold combineMax
    split_ifs <;> first | rfl | (exfalso; linarith)
  · intro a b c
    unfold combineMin
    cases h1 : hlt a.val b.val <;> cases h2 : hlt b.val c.val
    · simp [h1, h2, hlt_neg_trans h1 h2]
    · simp [h1, h2]
    · simp [h1, h2]
    · simp [h1, h2, hlt_trans h1 h2]
  · intro a b
    unfold combineMax
    split_ifs <;> first | rfl | linarith
  · intro a b
    unfold combineMin
    cases h1 : hlt a.val b.val <;> cases h2 : hlt b.val a.val
    · simp [hlt_eq h1 h2]
    · simp
    · simp
    · exact absurd h2 (by simp [hlt_asymm h1])

/-- Claim C10: the pivot loop is a do-while — for any state the body (whose
first phase is the ratio test) executes before the continuation condition is
consulted, even when the initial scan left the sentinel `-1` in the
entering-candidate index; and the column index the first ratio test reads is
within bounds (`0 ≤ index ≤ n`) exactly when the objective row holds at
least one strictly negative entry. -/
theorem C10_dowhile_bounds (T : Tab) (m n fuel : ℕ) (s : EngineState) :
    engineRun m n (fuel + 1) s =
      (match engineStep m n s with
       | .unbounded => Outcome.unbounded
       | .next s' conta =>
         if conta ≠ 0 then engineRun m n fuel s' else .optimal s') ∧
    ((0 ≤ (initialScan T m n).index ∧ (initialScan T m n).index ≤ (n : ℤ)) ↔
      ∃ j ≤ n, entry T m j < 0) := by
  refine ⟨rfl, ?_⟩
  rcases initialScan_spec T m n with ⟨_, hi0, hall⟩ | ⟨j0, hj0, hi0, _, hneg0, _⟩
  · rw [hi0]
    constructor
    · intro h
      exact absurd h.1 (by omega)
    · rintro ⟨j, hj, hneg⟩
      exact absurd hneg (not_lt.2 (hall j (by omega)))
  · rw [hi0]
    constructor
    · intro _
      exact ⟨j0, by omega, hneg0⟩
    · intro _
      exact ⟨by omega, by omega⟩

end ParallelSimplex




